import Mathlib

/-!
Shallow embedding of the fixed-size-class memory allocator in src/main.c
of borlak/memory_manager: the size-class resolver get_chunk_index, the
cyclic preallocation seeder preallocate_memory, and the allocation /
deallocation core mm_malloc / mm_free, together with proofs about the
specified properties.

Modelling conventions:
* machine integers (size_t) are Nat; all values relevant to the claims stay
  far below 2 ^ 64, and the two 64-bit builtins are modelled with 64 steps
  of fuel, mirroring their operand width;
* pointers are Nat block identities, 0 playing the role of NULL;
* the backing general-purpose allocator (malloc) is modelled as an unbounded
  supply of fresh non-null blocks (nextBlock), and every request made to it
  is recorded, size by size and in order, in mallocLog;
* a C expression whose evaluation is undefined (an out-of-bounds array
  access, __builtin_ctzll applied to 0) is modelled as Option.none;
* an intrusive singly linked free list is modelled as the List of the block
  identities it holds, head first; the NULL end marker is the empty list.
-/

namespace MemMan

/-- Constant MIN_CHUNK_SIZE from src/main.c. -/
def MIN_CHUNK_SIZE : Nat := 4

/-- Constant MAX_CHUNK_SIZE from src/main.c. -/
def MAX_CHUNK_SIZE : Nat := 65536

/-- Constant CHUNK_CLASSES from src/main.c: the length of the free-list and
counter arrays of the MemoryManager struct. -/
def CHUNK_CLASSES : Nat := 14

/-- The global chunk_sizes array from src/main.c.  Note that it has 15
entries, one more than CHUNK_CLASSES. -/
def chunk_sizes : List Nat :=
  [4, 8, 16, 32, 64, 128, 256, 512, 1024, 2048, 4096, 8192, 16384, 32768, 65536]

/-- Count of trailing zero bits, with fuel for the 64 bits of a 64-bit
word: for 0 < n < 2 ^ fuel, ctzAux fuel n is the 2-adic valuation of n. -/
def ctzAux : Nat → Nat → Nat
  | 0, _ => 0
  | fuel + 1, n => if n % 2 = 1 then 0 else ctzAux fuel (n / 2) + 1

/-- Model of __builtin_ctzll: defined only for a nonzero argument (the C
builtin has undefined behaviour on 0, hence none). -/
def ctzll (n : Nat) : Option Nat :=
  if n = 0 then none else some (ctzAux 64 n)

/-- Floor base-2 logarithm, with fuel for the 64 bits of a 64-bit word. -/
def log2Aux : Nat → Nat → Nat
  | 0, _ => 0
  | fuel + 1, n => if 2 ≤ n then log2Aux fuel (n / 2) + 1 else 0

/-- Model of __builtin_clzll on a 64-bit value: 63 minus the floor base-2
logarithm.  The source applies it only inside the not-a-power-of-two branch
of get_chunk_index, hence only to arguments that are at least 3, so the
undefined case of the C builtin (argument 0) never arises there. -/
def clzll (n : Nat) : Nat := 63 - log2Aux 64 n

/-- Function get_chunk_index from src/main.c.  For size 0 it returns index 0
(the explicit edge case of the source).  Otherwise, if size is not a power
of two it is rounded up to the next power of two, by shifting 1 left by
64 minus the leading-zero count; the returned index is the trailing-zero
count of the (rounded) size divided by 4.  The result is none exactly when
that final __builtin_ctzll is applied to 0, i.e. for size 1 and size 2,
modelling the undefined behaviour of the builtin. -/
def get_chunk_index (size : Nat) : Option Nat :=
  if size = 0 then some 0
  else
    ctzll ((if size &&& (size - 1) ≠ 0 then 2 ^ (64 - clzll size) else size) / 4)

/-- The MemoryManager struct of src/main.c: one intrusive free list per chunk
class and one preallocated-block counter per chunk class.  In the C source
both fields are arrays of length CHUNK_CLASSES (= 14); here they are lists,
and an access beyond the list length models an access beyond the C array. -/
structure MemoryManager where
  free_list : List (List Nat)
  preallocated_counts : List Nat
  deriving DecidableEq

/-- Whole-process allocator state: the global mem_manager variable plus the
model of the backing general-purpose allocator (a counter supplying fresh
block identities, and the log of the request sizes passed to malloc). -/
structure ProcState where
  mem_manager : MemoryManager
  nextBlock : Nat
  mallocLog : List Nat
  deriving DecidableEq

/-- The initial global state of src/main.c: all CHUNK_CLASSES free lists
NULL and all counters 0.  Fresh blocks are numbered from 1, keeping 0 for
NULL. -/
def initState : ProcState :=
  { mem_manager :=
      { free_list := List.replicate CHUNK_CLASSES []
        preallocated_counts := List.replicate CHUNK_CLASSES 0 }
    nextBlock := 1
    mallocLog := [] }

/-- Function mm_malloc from src/main.c.  Returns none when the execution is
undefined (free-list array access out of bounds, or undefined
get_chunk_index); otherwise some (p, st') with p the returned pointer (0 for
NULL) and st' the post state.  An invalid size returns NULL at once with no
side effect.  If the selected free list is non-NULL its head block is popped
and returned; otherwise a single backing allocation of the class size (not
of the raw requested size) is made and returned. -/
def mm_malloc (size : Nat) (st : ProcState) : Option (Nat × ProcState) :=
  if size = 0 ∨ MAX_CHUNK_SIZE < size then some (0, st)
  else
    match get_chunk_index size with
    | none => none
    | some index =>
      match st.mem_manager.free_list[index]? with
      | none => none
      | some (block :: rest) =>
        some (block,
          { st with mem_manager :=
              { st.mem_manager with
                  free_list := st.mem_manager.free_list.set index rest } })
      | some [] =>
        some (st.nextBlock,
          { st with
              nextBlock := st.nextBlock + 1
              mallocLog := st.mallocLog ++ [chunk_sizes.getD index 0] })

/-- Function mm_free from src/main.c.  A NULL pointer, a zero size or an
oversized size make it return at once with no effect.  Otherwise the block
is pushed on the head of the free list of the resolved class.  none models
an undefined execution (out-of-bounds free-list access or undefined
get_chunk_index). -/
def mm_free (ptr size : Nat) (st : ProcState) : Option ProcState :=
  if ptr = 0 ∨ size = 0 ∨ MAX_CHUNK_SIZE < size then some st
  else
    match get_chunk_index size with
    | none => none
    | some index =>
      match st.mem_manager.free_list[index]? with
      | none => none
      | some l =>
        some { st with mem_manager :=
            { st.mem_manager with
                free_list := st.mem_manager.free_list.set index (ptr :: l) } }

/-- One iteration body of the preallocate_memory loop of src/main.c, acting
on the state: it takes a fresh block from the backing allocator (the source
assumption that malloc succeeds is modelled by the unbounded fresh supply;
on failure the C program exits), pushes it on the free list of class i and
increments the preallocated counter of class i. -/
def seedStep (i : Nat) (st : ProcState) : ProcState :=
  { st with
      mem_manager :=
        { free_list :=
            st.mem_manager.free_list.set i
              (st.nextBlock :: st.mem_manager.free_list.getD i [])
          preallocated_counts :=
            st.mem_manager.preallocated_counts.set i
              (st.mem_manager.preallocated_counts.getD i 0 + 1) }
      nextBlock := st.nextBlock + 1
      mallocLog := st.mallocLog ++ [chunk_sizes.getD i 0] }

/-- Loop of preallocate_memory from src/main.c, with fuel.  Arguments:
remaining fuel, the loop bound total_memory * 2, the running total
allocated_memory, the current class cursor i, and the state.  One iteration
runs when allocated_memory plus the current class size still fits under the
bound: it performs seedStep, adds the class size to the running total, and
steps i cyclically.  The i cursor stays in the interval between 0 and
CHUNK_CLASSES, so every array access of the loop is in bounds in the C
source; the returned trace of visited class indices is specification ghost
data whose image under chunk size lookup is exactly what the loop appended
to mallocLog.  Returns the final state, the final running total and the
trace. -/
def preallocateAux : Nat → Nat → Nat → Nat → ProcState → ProcState × Nat × List Nat
  | 0, _, allocated, _, st => (st, allocated, [])
  | fuel + 1, total2, allocated, i, st =>
    let c := chunk_sizes.getD i 0
    if allocated + c ≤ total2 then
      let r := preallocateAux fuel total2 (allocated + c) ((i + 1) % CHUNK_CLASSES)
        (seedStep i st)
      (r.1, r.2.1, i :: r.2.2)
    else
      (st, allocated, [])

/-- Function preallocate_memory from src/main.c.  The C while loop runs
while allocated_memory + chunk_sizes at the cursor is at most
total_memory * 2; every iteration grows allocated_memory by at least
MIN_CHUNK_SIZE = 4, so total_memory * 2 + 1 units of fuel always suffice
(see preallocateAux_fuel_stable below). -/
def preallocate_memory (total_memory : Nat) (st : ProcState) :
    ProcState × Nat × List Nat :=
  preallocateAux (total_memory * 2 + 1) (total_memory * 2) 0 0 st

/-- An operation of the allocation / deallocation core, as driven by the
benchmark harness: an mm_malloc call with a size, or an mm_free call with a
pointer and a size. -/
inductive Op where
  | alloc : Nat → Op
  | free : Nat → Nat → Op
  deriving DecidableEq

/-- One step of the core: runs the operation on the state, yielding the new
state and, for an allocation, the returned pointer. -/
def stepOp (st : ProcState) : Op → Option (ProcState × Option Nat)
  | Op.alloc size => (mm_malloc size st).map fun p => (p.2, some p.1)
  | Op.free ptr size => (mm_free ptr size st).map fun st' => (st', none)

/-- Runs a list of operations from a state, collecting one output slot per
operation (the returned pointer for an allocation, none for a free).  The
whole run is none as soon as one step is undefined. -/
def runTrace : ProcState → List Op → Option (ProcState × List (Option Nat))
  | st, [] => some (st, [])
  | st, op :: ops =>
    match stepOp st op with
    | none => none
    | some (st', out) =>
      (runTrace st' ops).map fun r => (r.1, out :: r.2)

/-- The free list of class j of a state (empty list when j is beyond the
array, as in the initial fragment of a read past the end). -/
def listAt (st : ProcState) (j : Nat) : List Nat :=
  st.mem_manager.free_list.getD j []

/-! Arithmetic facts about the two fuelled 64-bit builtins. -/

theorem log2Aux_spec :
    ∀ (fuel n : Nat), 0 < n → n < 2 ^ fuel →
      2 ^ log2Aux fuel n ≤ n ∧ n < 2 ^ (log2Aux fuel n + 1) := by
  intro fuel
  induction fuel with
  | zero =>
    intro n h1 h2
    simp only [pow_zero] at h2
    omega
  | succ f ih =>
    intro n h1 h2
    by_cases h : 2 ≤ n
    · have h1' : 0 < n / 2 := by omega
      have h2' : n / 2 < 2 ^ f := by
        have hp : (2 : Nat) ^ (f + 1) = 2 ^ f * 2 := pow_succ 2 f
        omega
      obtain ⟨a, b⟩ := ih (n / 2) h1' h2'
      have e : log2Aux (f + 1) n = log2Aux f (n / 2) + 1 := by
        simp [log2Aux, h]
      rw [e]
      constructor
      · have hp : (2 : Nat) ^ (log2Aux f (n / 2) + 1)
            = 2 ^ log2Aux f (n / 2) * 2 := pow_succ _ _
        omega
      · have hp : (2 : Nat) ^ (log2Aux f (n / 2) + 1 + 1)
            = 2 ^ (log2Aux f (n / 2) + 1) * 2 := pow_succ _ _
        omega
    · have e : log2Aux (f + 1) n = 0 := by simp [log2Aux, h]
      rw [e]
      simp only [pow_zero, pow_one]
      omega

theorem ctzAux_two_pow : ∀ (m fuel : Nat), m < fuel → ctzAux fuel (2 ^ m) = m := by
  intro m
  induction m with
  | zero =>
    intro fuel h
    match fuel, h with
    | f + 1, _ => simp [ctzAux]
  | succ k ih =>
    intro fuel h
    match fuel, h with
    | f + 1, h =>
      have h2 : (2 : Nat) ^ (k + 1) = 2 ^ k * 2 := pow_succ 2 k
      have hk : (0 : Nat) < 2 ^ k := pow_pos (by norm_num) k
      have hx : (2 : Nat) ^ (k + 1) % 2 = 0 := by omega
      have hd : (2 : Nat) ^ (k + 1) / 2 = 2 ^ k := by omega
      have hne : ¬ (2 : Nat) ^ (k + 1) % 2 = 1 := by omega
      simp only [ctzAux, if_neg hne, hd]
      exact congrArg (· + 1) (ih f (by omega))

/-! The power-of-two test size AND (size minus 1) of the source. -/

theorem two_pow_land_pred (k : Nat) : 2 ^ k &&& (2 ^ k - 1) = 0 := by
  apply Nat.eq_of_testBit_eq
  intro i
  rw [Nat.testBit_land, Nat.testBit_two_pow, Nat.testBit_two_pow_sub_one,
    Nat.zero_testBit]
  by_cases h : k = i
  · subst h
    simp
  · simp [h]

theorem land_pred_ne_zero_of_between {k s : Nat} (h1 : 2 ^ k < s)
    (h2 : s < 2 ^ (k + 1)) : s &&& (s - 1) ≠ 0 := by
  have hp : (2 : Nat) ^ (k + 1) = 2 ^ k * 2 := pow_succ 2 k
  have hk : (0 : Nat) < 2 ^ k := pow_pos (by norm_num) k
  have hs : Nat.testBit s k = true := by
    rw [Nat.testBit_to_div_mod]
    have hdiv : s / 2 ^ k = 1 :=
      Nat.div_eq_of_lt_le (by omega) (by omega)
    simp [hdiv]
  have hs1 : Nat.testBit (s - 1) k = true := by
    rw [Nat.testBit_to_div_mod]
    have hdiv : (s - 1) / 2 ^ k = 1 :=
      Nat.div_eq_of_lt_le (by omega) (by omega)
    simp [hdiv]
  intro h0
  have hb := Nat.testBit_land s (s - 1) k
  rw [h0, Nat.zero_testBit, hs, hs1] at hb
  simp at hb

/-! The chunk size table. -/

theorem chunk_sizes_getD_eq : ∀ i, i < 15 → chunk_sizes.getD i 0 = 2 ^ (i + 2) := by
  decide

theorem chunk_sizes_getD_pos : ∀ i, i < 14 → 4 ≤ chunk_sizes.getD i 0 := by
  decide

/-- Characterisation of the size-class resolver on the sizes where its
execution is defined: for 3 ≤ s ≤ 65536 it returns the index i ≤ 14 with
2 ^ (i + 1) < s ≤ 2 ^ (i + 2), i.e. the smallest class (of size 4 * 2 ^ i)
that contains the request. -/
theorem get_chunk_index_spec {s : Nat} (h3 : 3 ≤ s) (h : s ≤ MAX_CHUNK_SIZE) :
    ∃ i, get_chunk_index s = some i ∧ i ≤ 14 ∧ 2 ^ (i + 1) < s ∧ s ≤ 2 ^ (i + 2) := by
  have hM : s ≤ 65536 := h
  have hs0 : 0 < s := by omega
  have h0 : ¬ s = 0 := by omega
  have hlt : s < 2 ^ 64 := by
    have h64 : (65536 : Nat) < 2 ^ 64 := by norm_num
    omega
  have hspec := log2Aux_spec 64 s hs0 hlt
  set k := log2Aux 64 s with hk
  obtain ⟨hlow, hhigh⟩ := hspec
  have hk16 : k ≤ 16 := by
    by_contra hgt
    push_neg at hgt
    have hx : (2 : Nat) ^ 17 ≤ 2 ^ k := Nat.pow_le_pow_right (by norm_num) (by omega)
    have h17 : (2 : Nat) ^ 17 = 131072 := by norm_num
    omega
  by_cases hpow : s = 2 ^ k
  · have hland : s &&& (s - 1) = 0 := by rw [hpow]; exact two_pow_land_pred k
    have hcond : ¬ (s &&& (s - 1) ≠ 0) := by simp [hland]
    have hk2 : 2 ≤ k := by
      by_contra hlt2
      push_neg at hlt2
      have hx : (2 : Nat) ^ k ≤ 2 ^ 1 := Nat.pow_le_pow_right (by norm_num) (by omega)
      have h1 : (2 : Nat) ^ 1 = 2 := by norm_num
      omega
    have hdiv : s / 4 = 2 ^ (k - 2) := by
      have he : s = 2 ^ (k - 2) * 4 := by
        rw [hpow]
        have h22 : k - 2 + 2 = k := by omega
        calc (2 : Nat) ^ k = 2 ^ (k - 2 + 2) := by rw [h22]
          _ = 2 ^ (k - 2) * 2 ^ 2 := pow_add 2 (k - 2) 2
          _ = 2 ^ (k - 2) * 4 := by norm_num
      rw [he, Nat.mul_div_cancel _ (by norm_num)]
    have hpos : (0 : Nat) < 2 ^ (k - 2) := pow_pos (by norm_num) _
    refine ⟨k - 2, ?_, by omega, ?_, ?_⟩
    · simp only [get_chunk_index, ctzll]
      rw [if_neg h0, if_neg hcond, hdiv, if_neg (by omega : ¬ 2 ^ (k - 2) = 0)]
      exact congrArg some (ctzAux_two_pow (k - 2) 64 (by omega))
    · have hx : (2 : Nat) ^ (k - 2 + 1) < 2 ^ k :=
        Nat.pow_lt_pow_right (by norm_num) (by omega)
      omega
    · have h22 : k - 2 + 2 = k := by omega
      rw [h22, ← hpow]
  · have h1 : 2 ^ k < s := lt_of_le_of_ne hlow (fun he => hpow he.symm)
    have hland : s &&& (s - 1) ≠ 0 := land_pred_ne_zero_of_between h1 hhigh
    have hk1 : 1 ≤ k := by
      by_contra hlt1
      push_neg at hlt1
      have hk0 : k = 0 := by omega
      rw [hk0] at hhigh
      norm_num at hhigh
      omega
    have hk15 : k ≤ 15 := by
      by_contra hgt
      push_neg at hgt
      have hk0 : k = 16 := by omega
      rw [hk0] at h1
      norm_num at h1
      omega
    have hcl : 64 - clzll s = k + 1 := by
      simp only [clzll, ← hk]
      omega
    have hdiv : 2 ^ (k + 1) / 4 = 2 ^ (k - 1) := by
      have he : (2 : Nat) ^ (k + 1) = 2 ^ (k - 1) * 4 := by
        have h12 : k - 1 + 2 = k + 1 := by omega
        calc (2 : Nat) ^ (k + 1) = 2 ^ (k - 1 + 2) := by rw [h12]
          _ = 2 ^ (k - 1) * 2 ^ 2 := pow_add 2 (k - 1) 2
          _ = 2 ^ (k - 1) * 4 := by norm_num
      rw [he, Nat.mul_div_cancel _ (by norm_num)]
    have hpos : (0 : Nat) < 2 ^ (k - 1) := pow_pos (by norm_num) _
    refine ⟨k - 1, ?_, by omega, ?_, ?_⟩
    · simp only [get_chunk_index, ctzll]
      rw [if_neg h0, if_pos hland, hcl, hdiv, if_neg (by omega : ¬ 2 ^ (k - 1) = 0)]
      exact congrArg some (ctzAux_two_pow (k - 1) 64 (by omega))
    · have e : k - 1 + 1 = k := by omega
      rw [e]
      exact h1
    · have e : k - 1 + 2 = k + 1 := by omega
      rw [e]
      omega

/-! Small helpers about list reads and writes. -/

theorem getD_of_getElem? {α : Type} {l : List α} {i : Nat} {x : α} (d : α)
    (h : l[i]? = some x) : l.getD i d = x := by
  rw [List.getD_eq_getElem?_getD, h]
  rfl

theorem getD_set_self {α : Type} (l : List α) (i : Nat) (x d : α)
    (h : i < l.length) : (l.set i x).getD i d = x := by
  rw [List.getD_eq_getElem?_getD, List.getElem?_set_eq_of_lt _ h]
  rfl

theorem getD_set_ne {α : Type} (l : List α) {i k : Nat} (x d : α)
    (h : i ≠ k) : (l.set i x).getD k d = l.getD k d := by
  rw [List.getD_eq_getElem?_getD, List.getElem?_set_ne h, ← List.getD_eq_getElem?_getD]

/-- C1: for every allocator state, allocate of size 0 and of size 65537 both
fail, returning NULL with the state untouched.  Allocate of size 65536,
however, does not succeed through a 65536-byte size class: the resolved
index 14 is out of bounds for the CHUNK_CLASSES = 14 free lists, so the
execution is undefined (shown here on the freshly initialised state). -/
theorem c1_rejection_boundary :
    (∀ st : ProcState, mm_malloc 0 st = some (0, st)) ∧
    (∀ st : ProcState, mm_malloc 65537 st = some (0, st)) ∧
    mm_malloc 65536 initState = none := by
  refine ⟨fun st => ?_, fun st => ?_, by decide⟩
  · unfold mm_malloc
    rw [if_pos (Or.inl rfl)]
  · unfold mm_malloc
    rw [if_pos (Or.inr (by decide))]

/-- C1 witness: the two rejection parts evaluated on the initial state. -/
theorem c1_rejection_boundary_witness :
    mm_malloc 0 initState = some (0, initState) ∧
    mm_malloc 65537 initState = some (0, initState) :=
  ⟨c1_rejection_boundary.1 initState, c1_rejection_boundary.2.1 initState⟩

/-- C2: the size-class resolver, on sizes 3 to 65536, returns the index of
the smallest class (class sizes being 4 * 2 ^ index) whose size is at least
the request; but on sizes 1 and 2 its execution is undefined (the source
divides by 4 first, obtaining 0, and feeds 0 to the count-trailing-zeros
builtin), so the claimed property fails on those two sizes of the claimed
domain. -/
theorem c2_class_resolution :
    get_chunk_index 1 = none ∧ get_chunk_index 2 = none ∧
    ∀ s, 3 ≤ s → s ≤ MAX_CHUNK_SIZE →
      ∃ i, get_chunk_index s = some i ∧ chunk_sizes.getD i 0 = 4 * 2 ^ i ∧
        s ≤ chunk_sizes.getD i 0 ∧ ∀ j, j < i → chunk_sizes.getD j 0 < s := by
  refine ⟨by decide, by decide, fun s h3 hM => ?_⟩
  obtain ⟨i, hi, hle, hlt, hub⟩ := get_chunk_index_spec h3 hM
  have hcs : chunk_sizes.getD i 0 = 2 ^ (i + 2) := chunk_sizes_getD_eq i (by omega)
  refine ⟨i, hi, ?_, ?_, ?_⟩
  · rw [hcs, pow_add]
    ring
  · rw [hcs]
    exact hub
  · intro j hj
    rw [chunk_sizes_getD_eq j (by omega)]
    have hx : (2 : Nat) ^ (j + 2) ≤ 2 ^ (i + 1) :=
      Nat.pow_le_pow_right (by norm_num) (by omega)
    omega

/-- C2 witness: the resolver property instantiated at the size 100, whose
class is index 5 of size 128. -/
theorem c2_class_resolution_witness :
    ∃ i, get_chunk_index 100 = some i ∧ chunk_sizes.getD i 0 = 4 * 2 ^ i ∧
      100 ≤ chunk_sizes.getD i 0 ∧ ∀ j, j < i → chunk_sizes.getD j 0 < 100 :=
  c2_class_resolution.2.2 100 (by decide) (by decide)

/-- C3 counterexample: seeding with budget 40 does not wrap back to a second
4-byte block.  The sequence of classes seeded is exactly 0, 1, 2, 3 and the
4-byte class is seeded only once: the loop stops at the 64-byte class
because 60 + 64 exceeds 80, rather than skipping to a class that still
fits. -/
theorem c3_seed40_counterexample :
    (preallocate_memory 40 initState).2.2 = [0, 1, 2, 3] ∧
    ¬ 2 ≤ (preallocate_memory 40 initState).2.2.count 0 := by
  decide

/-- C3 amended: seeding with budget 40 and class sizes 4, 8, 16, 32, ...
seeds one 4-byte, one 8-byte, one 16-byte and one 32-byte block, in this
exact order (cumulative 60, at most 80 = 40 * 2), and then stops, because
the next class in cyclic order is the 64-byte class and 60 + 64 > 80; it
never wraps back to the 4-byte class, and the sequence is deterministic. -/
theorem c3_seed40_amended :
    (preallocate_memory 40 initState).2.2 = [0, 1, 2, 3] ∧
    (preallocate_memory 40 initState).2.1 = 60 ∧
    (preallocate_memory 40 initState).1.mallocLog = [4, 8, 16, 32] ∧
    (preallocate_memory 40 initState).1.mem_manager.preallocated_counts
      = [1, 1, 1, 1, 0, 0, 0, 0, 0, 0, 0, 0, 0, 0] ∧
    60 ≤ 40 * 2 ∧ ¬ 60 + 64 ≤ 40 * 2 := by
  decide

/-- C6: whenever an mm_malloc or an mm_free executes (returns a defined
result), the preallocated-block counters of the post state are exactly
those of the pre state: only the seeder writes them. -/
theorem c6_counters_untouched :
    (∀ (size : Nat) (st : ProcState) (r : Nat) (st' : ProcState),
        mm_malloc size st = some (r, st') →
        st'.mem_manager.preallocated_counts = st.mem_manager.preallocated_counts) ∧
    (∀ (ptr size : Nat) (st st' : ProcState),
        mm_free ptr size st = some st' →
        st'.mem_manager.preallocated_counts = st.mem_manager.preallocated_counts) := by
  constructor
  · intro size st r st' h
    unfold mm_malloc at h
    split at h
    · simp only [Option.some.injEq, Prod.mk.injEq] at h
      rw [← h.2]
    · split at h
      · exact absurd h (by simp)
      · split at h
        · exact absurd h (by simp)
        · simp only [Option.some.injEq, Prod.mk.injEq] at h
          rw [← h.2]
        · simp only [Option.some.injEq, Prod.mk.injEq] at h
          rw [← h.2]
  · intro ptr size st st' h
    unfold mm_free at h
    split at h
    · simp only [Option.some.injEq] at h
      rw [← h]
    · split at h
      · exact absurd h (by simp)
      · split at h
        · exact absurd h (by simp)
        · simp only [Option.some.injEq] at h
          rw [← h]

/-- C6 witness: both frame parts evaluated on a concrete successful
allocation and release from the initial state. -/
theorem c6_counters_untouched_witness :
    ({ mem_manager :=
         { free_list := List.replicate 14 []
           preallocated_counts := List.replicate 14 0 }
       nextBlock := 2
       mallocLog := [64] } : ProcState).mem_manager.preallocated_counts
      = initState.mem_manager.preallocated_counts :=
  c6_counters_untouched.1 64 initState 1
    { mem_manager :=
        { free_list := List.replicate 14 []
          preallocated_counts := List.replicate 14 0 }
      nextBlock := 2
      mallocLog := [64] }
    (by decide)

/-- C7: a release with a NULL pointer, a zero size or a size above 65536 is
a silent no-op: it returns with the entire allocator state unchanged. -/
theorem c7_release_rejects_silently (ptr size : Nat) (st : ProcState)
    (h : ptr = 0 ∨ size = 0 ∨ MAX_CHUNK_SIZE < size) :
    mm_free ptr size st = some st := by
  unfold mm_free
  rw [if_pos h]

/-! Execution shapes of the two core operations. -/

theorem lt_length_of_getElem? {α : Type} {l : List α} {i : Nat} {x : α}
    (h : l[i]? = some x) : i < l.length := by
  by_contra hn
  push_neg at hn
  rw [List.getElem?_len_le hn] at h
  cases h

theorem mm_malloc_pop {size idx b : Nat} {rest : List Nat} {st : ProcState}
    (hval : ¬ (size = 0 ∨ MAX_CHUNK_SIZE < size))
    (hidx : get_chunk_index size = some idx)
    (hget : st.mem_manager.free_list[idx]? = some (b :: rest)) :
    mm_malloc size st = some (b,
      { st with mem_manager :=
          { st.mem_manager with
              free_list := st.mem_manager.free_list.set idx rest } }) := by
  unfold mm_malloc
  rw [if_neg hval]
  simp only [hidx, hget]

theorem mm_malloc_fallback {size idx : Nat} {st : ProcState}
    (hval : ¬ (size = 0 ∨ MAX_CHUNK_SIZE < size))
    (hidx : get_chunk_index size = some idx)
    (hget : st.mem_manager.free_list[idx]? = some []) :
    mm_malloc size st = some (st.nextBlock,
      { st with
          nextBlock := st.nextBlock + 1
          mallocLog := st.mallocLog ++ [chunk_sizes.getD idx 0] }) := by
  unfold mm_malloc
  rw [if_neg hval]
  simp only [hidx, hget]

theorem mm_free_push {ptr size idx : Nat} {l : List Nat} {st : ProcState}
    (hval : ¬ (ptr = 0 ∨ size = 0 ∨ MAX_CHUNK_SIZE < size))
    (hidx : get_chunk_index size = some idx)
    (hget : st.mem_manager.free_list[idx]? = some l) :
    mm_free ptr size st = some
      { st with mem_manager :=
          { st.mem_manager with
              free_list := st.mem_manager.free_list.set idx (ptr :: l) } } := by
  unfold mm_free
  rw [if_neg hval]
  simp only [hidx, hget]

theorem mm_malloc_cases {size r : Nat} {st st' : ProcState}
    (h : mm_malloc size st = some (r, st')) :
    (r = 0 ∧ st' = st) ∨
    (∃ idx rest, get_chunk_index size = some idx ∧
        st.mem_manager.free_list[idx]? = some (r :: rest) ∧
        st' = { st with mem_manager :=
            { st.mem_manager with
                free_list := st.mem_manager.free_list.set idx rest } }) ∨
    (∃ idx, get_chunk_index size = some idx ∧
        st.mem_manager.free_list[idx]? = some [] ∧ r = st.nextBlock ∧
        st' = { st with
            nextBlock := st.nextBlock + 1
            mallocLog := st.mallocLog ++ [chunk_sizes.getD idx 0] }) := by
  unfold mm_malloc at h
  by_cases hval : size = 0 ∨ MAX_CHUNK_SIZE < size
  · rw [if_pos hval] at h
    simp only [Option.some.injEq, Prod.mk.injEq] at h
    exact Or.inl ⟨h.1.symm, h.2.symm⟩
  · rw [if_neg hval] at h
    cases hidx : get_chunk_index size with
    | none =>
      simp [hidx] at h
    | some idx =>
      simp only [hidx] at h
      cases hget : st.mem_manager.free_list[idx]? with
      | none =>
        simp [hget] at h
      | some l =>
        cases l with
        | nil =>
          simp only [hget, Option.some.injEq, Prod.mk.injEq] at h
          exact Or.inr (Or.inr ⟨idx, rfl, hget, h.1.symm, h.2.symm⟩)
        | cons b rest =>
          simp only [hget, Option.some.injEq, Prod.mk.injEq] at h
          refine Or.inr (Or.inl ⟨idx, rest, rfl, ?_, h.2.symm⟩)
          rw [← h.1]
          exact hget

theorem mm_free_cases {ptr size : Nat} {st st' : ProcState}
    (h : mm_free ptr size st = some st') :
    st' = st ∨
    (∃ idx l, get_chunk_index size = some idx ∧
        st.mem_manager.free_list[idx]? = some l ∧
        st' = { st with mem_manager :=
            { st.mem_manager with
                free_list := st.mem_manager.free_list.set idx (ptr :: l) } }) := by
  unfold mm_free at h
  by_cases hval : ptr = 0 ∨ size = 0 ∨ MAX_CHUNK_SIZE < size
  · rw [if_pos hval] at h
    simp only [Option.some.injEq] at h
    exact Or.inl h.symm
  · rw [if_neg hval] at h
    cases hidx : get_chunk_index size with
    | none =>
      simp [hidx] at h
    | some idx =>
      simp only [hidx] at h
      cases hget : st.mem_manager.free_list[idx]? with
      | none =>
        simp [hget] at h
      | some l =>
        simp only [hget, Option.some.injEq] at h
        exact Or.inr ⟨idx, l, rfl, hget, h.symm⟩

/-- C5: if an allocation of size 64 succeeds with a non-null block b, then
releasing b with size 64 succeeds, and the next allocation of size 64
returns the very same block b: the release prepends b to the head of the
free list of the class of 64, and the allocation pops that head. -/
theorem c5_lifo_reuse (st : ProcState) (b : Nat) (st1 : ProcState)
    (hlen : st.mem_manager.free_list.length = CHUNK_CLASSES)
    (hb : b ≠ 0)
    (h : mm_malloc 64 st = some (b, st1)) :
    ∃ st2 st3, mm_free b 64 st1 = some st2 ∧ mm_malloc 64 st2 = some (b, st3) := by
  have hval : ¬ ((64 : Nat) = 0 ∨ MAX_CHUNK_SIZE < 64) := by decide
  have hfval : ¬ (b = 0 ∨ (64 : Nat) = 0 ∨ MAX_CHUNK_SIZE < 64) := by
    rintro (h1 | h2 | h3)
    · exact hb h1
    · exact absurd h2 (by decide)
    · exact absurd h3 (by decide)
  have hidx : get_chunk_index 64 = some 4 := by decide
  have h4 : 4 < st.mem_manager.free_list.length := by
    rw [hlen]
    decide
  rcases mm_malloc_cases h with ⟨hr, -⟩ | ⟨idx, rest, hidx', hget, hst1⟩ |
    ⟨idx, hidx', hget, -, hst1⟩
  · exact absurd hr hb
  · have hii : idx = 4 := by
      rw [hidx'] at hidx
      exact (Option.some.injEq _ _).mp hidx
    subst hii
    subst hst1
    have hget1 : (st.mem_manager.free_list.set 4 rest)[4]? = some rest :=
      List.getElem?_set_eq_of_lt _ h4
    have hget2 : ((st.mem_manager.free_list.set 4 rest).set 4 (b :: rest))[4]?
        = some (b :: rest) := by
      apply List.getElem?_set_eq_of_lt
      rw [List.length_set]
      exact h4
    exact ⟨_, _, mm_free_push hfval hidx hget1, mm_malloc_pop hval hidx hget2⟩
  · have hii : idx = 4 := by
      rw [hidx'] at hidx
      exact (Option.some.injEq _ _).mp hidx
    subst hii
    subst hst1
    have hget2 : (st.mem_manager.free_list.set 4 (b :: []))[4]?
        = some (b :: []) :=
      List.getElem?_set_eq_of_lt _ h4
    exact ⟨_, _, mm_free_push hfval hidx hget, mm_malloc_pop hval hidx hget2⟩

/-- C5 witness: the round trip evaluated from the initial state, where the
first allocation of size 64 comes from the backing allocator as block 1,
the release pushes it on the free list of class 4, and the reallocation
returns block 1 again. -/
theorem c5_lifo_reuse_witness :
    ∃ st2 st3,
      mm_free 1 64
          { mem_manager :=
              { free_list := List.replicate 14 []
                preallocated_counts := List.replicate 14 0 }
            nextBlock := 2
            mallocLog := [64] } = some st2 ∧
      mm_malloc 64 st2 = some (1, st3) :=
  c5_lifo_reuse initState 1
    { mem_manager :=
        { free_list := List.replicate 14 []
          preallocated_counts := List.replicate 14 0 }
      nextBlock := 2
      mallocLog := [64] }
    (by decide) (by decide) (by decide)

/-- C8: when the free list of the resolved class is empty, a valid
allocation makes exactly one backing-allocator request, of exactly the
class size of the resolved class (which is at least the requested size but
in general differs from it), and returns the freshly obtained block.  The
claimed domain of every size in the interval from 1 to 65536 fails,
however: for size 65536 the free-list read itself is out of bounds, and
for size 1 the resolver execution is undefined, shown on the initial
(all-lists-empty) state. -/
theorem c8_fallback_requests_class_size :
    (∀ (s idx : Nat) (st : ProcState),
        0 < s → s ≤ MAX_CHUNK_SIZE →
        get_chunk_index s = some idx →
        st.mem_manager.free_list[idx]? = some [] →
        mm_malloc s st = some (st.nextBlock,
          { st with
              nextBlock := st.nextBlock + 1
              mallocLog := st.mallocLog ++ [chunk_sizes.getD idx 0] }) ∧
        s ≤ chunk_sizes.getD idx 0) ∧
    mm_malloc 65536 initState = none ∧
    mm_malloc 1 initState = none := by
  refine ⟨fun s idx st hs0 hsM hidx hget => ⟨?_, ?_⟩, by decide, by decide⟩
  · refine mm_malloc_fallback ?_ hidx hget
    rintro (h1 | h2)
    · omega
    · omega
  · have h3 : 3 ≤ s := by
      by_contra hlt
      push_neg at hlt
      have hnone : get_chunk_index s = none := by
        interval_cases s
        · decide
        · decide
      rw [hnone] at hidx
      cases hidx
    obtain ⟨i, hi, hle, hlt2, hub⟩ := get_chunk_index_spec h3 hsM
    have hii : i = idx := by
      rw [hidx] at hi
      exact (Option.some.injEq _ _).mp hi.symm
    subst hii
    rw [chunk_sizes_getD_eq i (by omega)]
    exact hub

/-- C8 witness: the fallback path evaluated for size 64 on the initial
state, where class 4 (size 64) is empty, so one backing request of 64
bytes is made and the fresh block 1 is returned. -/
theorem c8_fallback_requests_class_size_witness :
    mm_malloc 64 initState = some (initState.nextBlock,
      { initState with
          nextBlock := initState.nextBlock + 1
          mallocLog := initState.mallocLog ++ [chunk_sizes.getD 4 0] }) ∧
    64 ≤ chunk_sizes.getD 4 0 :=
  c8_fallback_requests_class_size.1 64 4 initState (by decide) (by decide)
    (by decide) (by decide)

/-! Unfoldings of the seeder loop and facts about one seeding step. -/

theorem preallocateAux_stop {fuel total2 allocated i : Nat} {st : ProcState}
    (hc : ¬ allocated + chunk_sizes.getD i 0 ≤ total2) :
    preallocateAux (fuel + 1) total2 allocated i st = (st, allocated, []) := by
  simp only [preallocateAux]
  rw [if_neg hc]

theorem preallocateAux_step {fuel total2 allocated i : Nat} {st : ProcState}
    (hc : allocated + chunk_sizes.getD i 0 ≤ total2) :
    preallocateAux (fuel + 1) total2 allocated i st
      = ((preallocateAux fuel total2 (allocated + chunk_sizes.getD i 0)
            ((i + 1) % CHUNK_CLASSES) (seedStep i st)).1,
         (preallocateAux fuel total2 (allocated + chunk_sizes.getD i 0)
            ((i + 1) % CHUNK_CLASSES) (seedStep i st)).2.1,
         i :: (preallocateAux fuel total2 (allocated + chunk_sizes.getD i 0)
            ((i + 1) % CHUNK_CLASSES) (seedStep i st)).2.2) := by
  simp only [preallocateAux]
  rw [if_pos hc]

theorem seedStep_counts_getD_self {i : Nat} {st : ProcState}
    (h : i < st.mem_manager.preallocated_counts.length) :
    (seedStep i st).mem_manager.preallocated_counts.getD i 0
      = st.mem_manager.preallocated_counts.getD i 0 + 1 := by
  simp only [seedStep]
  exact getD_set_self _ _ _ _ h

theorem seedStep_counts_getD_ne {i k : Nat} {st : ProcState} (h : i ≠ k) :
    (seedStep i st).mem_manager.preallocated_counts.getD k 0
      = st.mem_manager.preallocated_counts.getD k 0 := by
  simp only [seedStep]
  exact getD_set_ne _ _ _ h

theorem seedStep_free_getD_self {i : Nat} {st : ProcState}
    (h : i < st.mem_manager.free_list.length) :
    (seedStep i st).mem_manager.free_list.getD i []
      = st.nextBlock :: st.mem_manager.free_list.getD i [] := by
  simp only [seedStep]
  exact getD_set_self _ _ _ _ h

theorem seedStep_free_getD_ne {i k : Nat} {st : ProcState} (h : i ≠ k) :
    (seedStep i st).mem_manager.free_list.getD k []
      = st.mem_manager.free_list.getD k [] := by
  simp only [seedStep]
  exact getD_set_ne _ _ _ h

theorem preallocateAux_total_le :
    ∀ (fuel total2 allocated i : Nat) (st : ProcState),
      allocated ≤ total2 →
      (preallocateAux fuel total2 allocated i st).2.1 ≤ total2 := by
  intro fuel
  induction fuel with
  | zero =>
    intro total2 allocated i st h
    exact h
  | succ f ih =>
    intro total2 allocated i st h
    by_cases hc : allocated + chunk_sizes.getD i 0 ≤ total2
    · rw [preallocateAux_step hc]
      exact ih _ _ _ _ hc
    · rw [preallocateAux_stop hc]
      exact h

theorem preallocateAux_log :
    ∀ (fuel total2 allocated i : Nat) (st : ProcState),
      (preallocateAux fuel total2 allocated i st).1.mallocLog
        = st.mallocLog
          ++ (preallocateAux fuel total2 allocated i st).2.2.map
              (fun j => chunk_sizes.getD j 0) := by
  intro fuel
  induction fuel with
  | zero =>
    intro total2 allocated i st
    simp [preallocateAux]
  | succ f ih =>
    intro total2 allocated i st
    by_cases hc : allocated + chunk_sizes.getD i 0 ≤ total2
    · rw [preallocateAux_step hc]
      dsimp only
      rw [ih]
      simp [seedStep]
    · rw [preallocateAux_stop hc]
      simp

theorem preallocateAux_sum :
    ∀ (fuel total2 allocated i : Nat) (st : ProcState),
      (preallocateAux fuel total2 allocated i st).2.1
        = allocated
          + ((preallocateAux fuel total2 allocated i st).2.2.map
              (fun j => chunk_sizes.getD j 0)).sum := by
  intro fuel
  induction fuel with
  | zero =>
    intro total2 allocated i st
    simp [preallocateAux]
  | succ f ih =>
    intro total2 allocated i st
    by_cases hc : allocated + chunk_sizes.getD i 0 ≤ total2
    · rw [preallocateAux_step hc]
      dsimp only
      rw [ih]
      simp
      omega
    · rw [preallocateAux_stop hc]
      simp

theorem preallocateAux_trace :
    ∀ (fuel total2 allocated i : Nat) (st : ProcState), i < CHUNK_CLASSES →
      ∀ t, t < (preallocateAux fuel total2 allocated i st).2.2.length →
        (preallocateAux fuel total2 allocated i st).2.2[t]?
          = some ((i + t) % CHUNK_CLASSES) := by
  intro fuel
  induction fuel with
  | zero =>
    intro total2 allocated i st hi t ht
    simp [preallocateAux] at ht
  | succ f ih =>
    intro total2 allocated i st hi t ht
    by_cases hc : allocated + chunk_sizes.getD i 0 ≤ total2
    · rw [preallocateAux_step hc] at ht ⊢
      dsimp only at ht ⊢
      cases t with
      | zero =>
        simp [Nat.mod_eq_of_lt hi]
      | succ t' =>
        have hmod : (i + 1) % CHUNK_CLASSES < CHUNK_CLASSES :=
          Nat.mod_lt _ (by decide)
        have ht' : t' < (preallocateAux f total2 (allocated + chunk_sizes.getD i 0)
            ((i + 1) % CHUNK_CLASSES) (seedStep i st)).2.2.length := by
          rw [List.length_cons] at ht
          omega
        have hrec := ih total2 (allocated + chunk_sizes.getD i 0)
          ((i + 1) % CHUNK_CLASSES) (seedStep i st) hmod t' ht'
        rw [List.getElem?_cons_succ, hrec, Nat.mod_add_mod]
        have e : i + 1 + t' = i + (t' + 1) := by omega
        rw [e]
    · rw [preallocateAux_stop hc] at ht
      simp at ht

theorem preallocateAux_counts :
    ∀ (fuel total2 allocated i : Nat) (st : ProcState),
      i < CHUNK_CLASSES →
      st.mem_manager.preallocated_counts.length = CHUNK_CLASSES →
      st.mem_manager.free_list.length = CHUNK_CLASSES →
      ∀ k, k < CHUNK_CLASSES →
        (preallocateAux fuel total2 allocated i
              st).1.mem_manager.preallocated_counts.getD k 0
            = st.mem_manager.preallocated_counts.getD k 0
              + (preallocateAux fuel total2 allocated i st).2.2.count k ∧
        ((preallocateAux fuel total2 allocated i
              st).1.mem_manager.free_list.getD k []).length
            = (st.mem_manager.free_list.getD k []).length
              + (preallocateAux fuel total2 allocated i st).2.2.count k := by
  intro fuel
  induction fuel with
  | zero =>
    intro total2 allocated i st hi hcl hfl k hk
    simp [preallocateAux]
  | succ f ih =>
    intro total2 allocated i st hi hcl hfl k hk
    by_cases hc : allocated + chunk_sizes.getD i 0 ≤ total2
    · rw [preallocateAux_step hc]
      dsimp only
      have hmod : (i + 1) % CHUNK_CLASSES < CHUNK_CLASSES :=
        Nat.mod_lt _ (by decide)
      have hcl' : (seedStep i st).mem_manager.preallocated_counts.length
          = CHUNK_CLASSES := by
        simp [seedStep, hcl]
      have hfl' : (seedStep i st).mem_manager.free_list.length = CHUNK_CLASSES := by
        simp [seedStep, hfl]
      obtain ⟨ih1, ih2⟩ := ih total2 (allocated + chunk_sizes.getD i 0)
        ((i + 1) % CHUNK_CLASSES) (seedStep i st) hmod hcl' hfl' k hk
      rw [List.count_cons] at *
      constructor
      · rw [ih1]
        by_cases hik : i = k
        · subst hik
          rw [seedStep_counts_getD_self (by rw [hcl]; exact hi)]
          simp
          omega
        · rw [seedStep_counts_getD_ne hik]
          simp [hik]
      · rw [ih2]
        by_cases hik : i = k
        · subst hik
          rw [seedStep_free_getD_self (by rw [hfl]; exact hi)]
          simp
          omega
        · rw [seedStep_free_getD_ne hik]
          simp [hik]
    · rw [preallocateAux_stop hc]
      simp

/-- C4: for every budget B and every well-formed state, the seeder visits
the size classes in round-robin order starting at class 0 (the t-th seeded
class is t mod CHUNK_CLASSES, wrapping); each iteration makes exactly one
backing allocation of the current class size (the malloc log grows by
exactly the image of the visited-class sequence under the class-size
table), pushes the block onto that class's free list and increments that
class's preallocated counter (counter and free-list length of every class
grow by exactly the number of visits of that class); and the loop stops
before the running total would pass total * 2, so the total seeded is at
most twice the budget (and equals the sum of the seeded class sizes). -/
theorem c4_seeder_round_robin (B : Nat) (st : ProcState)
    (hfl : st.mem_manager.free_list.length = CHUNK_CLASSES)
    (hpc : st.mem_manager.preallocated_counts.length = CHUNK_CLASSES) :
    (preallocate_memory B st).2.1 ≤ B * 2 ∧
    (∀ t, t < (preallocate_memory B st).2.2.length →
        (preallocate_memory B st).2.2[t]? = some (t % CHUNK_CLASSES)) ∧
    (preallocate_memory B st).1.mallocLog
        = st.mallocLog
          ++ (preallocate_memory B st).2.2.map (fun j => chunk_sizes.getD j 0) ∧
    (preallocate_memory B st).2.1
        = ((preallocate_memory B st).2.2.map (fun j => chunk_sizes.getD j 0)).sum ∧
    ∀ k, k < CHUNK_CLASSES →
      (preallocate_memory B st).1.mem_manager.preallocated_counts.getD k 0
          = st.mem_manager.preallocated_counts.getD k 0
            + (preallocate_memory B st).2.2.count k ∧
      ((preallocate_memory B st).1.mem_manager.free_list.getD k []).length
          = (st.mem_manager.free_list.getD k []).length
            + (preallocate_memory B st).2.2.count k := by
  refine ⟨?_, ?_, ?_, ?_, ?_⟩
  · exact preallocateAux_total_le _ _ _ _ _ (Nat.zero_le _)
  · intro t ht
    have h := preallocateAux_trace (B * 2 + 1) (B * 2) 0 0 st (by decide) t ht
    simpa using h
  · exact preallocateAux_log _ _ _ _ _
  · have h := preallocateAux_sum (B * 2 + 1) (B * 2) 0 0 st
    simpa using h
  · intro k hk
    exact preallocateAux_counts (B * 2 + 1) (B * 2) 0 0 st (by decide) hpc hfl k hk

/-- C4 witness: the budget bound, evaluated for the seeding of budget 40
from the initial state. -/
theorem c4_seeder_round_robin_witness :
    (preallocate_memory 40 initState).2.1 ≤ 40 * 2 :=
  (c4_seeder_round_robin 40 initState (by decide) (by decide)).1

/-! Fuel does not matter: the fuel chosen in preallocate_memory suffices. -/

theorem preallocateAux_fuel_stable :
    ∀ (fuel fuel' total2 allocated i : Nat) (st : ProcState),
      i < CHUNK_CLASSES →
      total2 + 1 ≤ allocated + 4 * fuel →
      fuel ≤ fuel' →
      preallocateAux fuel total2 allocated i st
        = preallocateAux fuel' total2 allocated i st := by
  intro fuel
  induction fuel with
  | zero =>
    intro fuel' total2 allocated i st hi hen hle
    cases fuel' with
    | zero => rfl
    | succ f' =>
      rw [preallocateAux_stop (by omega)]
      rfl
  | succ f ih =>
    intro fuel' total2 allocated i st hi hen hle
    have hc4 : 4 ≤ chunk_sizes.getD i 0 := chunk_sizes_getD_pos i hi
    cases fuel' with
    | zero => omega
    | succ f' =>
      by_cases hc : allocated + chunk_sizes.getD i 0 ≤ total2
      · rw [preallocateAux_step hc, preallocateAux_step hc]
        rw [ih f' total2 (allocated + chunk_sizes.getD i 0) ((i + 1) % CHUNK_CLASSES)
          (seedStep i st) (Nat.mod_lt _ (by decide)) (by omega) (by omega)]
      · rw [preallocateAux_stop hc, preallocateAux_stop hc]

theorem preallocate_memory_fuel_sufficient (B : Nat) (st : ProcState) (extra : Nat) :
    preallocate_memory B st = preallocateAux (B * 2 + 1 + extra) (B * 2) 0 0 st := by
  simp only [preallocate_memory]
  exact preallocateAux_fuel_stable (B * 2 + 1) (B * 2 + 1 + extra) (B * 2) 0 0 st
    (by decide) (by omega) (by omega)

/-! Counting helpers for the round-robin distribution. -/

theorem getD_replicate {α : Type} (n k : Nat) (x : α) :
    (List.replicate n x).getD k x = x := by
  induction n generalizing k with
  | zero =>
    cases k <;> rfl
  | succ m ih =>
    cases k with
    | zero => rfl
    | succ k' => exact ih k'

theorem count_range_map_mod (n k : Nat) (hk : k < 14) :
    ((List.range n).map (fun t => t % CHUNK_CLASSES)).count k
      = n / 14 + if k < n % 14 then 1 else 0 := by
  simp only [CHUNK_CLASSES]
  induction n with
  | zero => simp
  | succ m ih =>
    rw [List.range_succ, List.map_append, List.count_append, ih]
    simp only [List.map_cons, List.map_nil]
    rw [List.count_singleton']
    split_ifs <;> omega

/-- C10: starting from the freshly initialised allocator, after seeding with
any budget B the preallocated counters are nonincreasing in the class
index, and any two counters differ by at most one: the round-robin order
stops mid-round, so the classes before the stopping point of the final
round have exactly one more block than the rest. -/
theorem c10_seed_balance (B i j : Nat) (hij : i ≤ j) (hj : j < CHUNK_CLASSES) :
    (preallocate_memory B initState).1.mem_manager.preallocated_counts.getD j 0
        ≤ (preallocate_memory B initState).1.mem_manager.preallocated_counts.getD i 0 ∧
    (preallocate_memory B initState).1.mem_manager.preallocated_counts.getD i 0
        ≤ (preallocate_memory B initState).1.mem_manager.preallocated_counts.getD j 0
          + 1 := by
  have hi : i < CHUNK_CLASSES := Nat.lt_of_le_of_lt hij hj
  have hj14 : j < 14 := hj
  have hi14 : i < 14 := hi
  simp only [preallocate_memory]
  have hji := (preallocateAux_counts (B * 2 + 1) (B * 2) 0 0 initState
    (by decide) (by decide) (by decide) j hj).1
  have hii := (preallocateAux_counts (B * 2 + 1) (B * 2) 0 0 initState
    (by decide) (by decide) (by decide) i hi).1
  have hinit : ∀ k : Nat, initState.mem_manager.preallocated_counts.getD k 0 = 0 :=
    fun k => getD_replicate CHUNK_CLASSES k 0
  have htrace := preallocateAux_trace (B * 2 + 1) (B * 2) 0 0 initState (by decide)
  rw [hji, hii, hinit, hinit]
  obtain ⟨tr, htr⟩ :
      ∃ tr, (preallocateAux (B * 2 + 1) (B * 2) 0 0 initState).2.2 = tr := ⟨_, rfl⟩
  rw [htr]
  rw [htr] at htrace
  have htr_eq : tr = (List.range tr.length).map (fun t => t % CHUNK_CLASSES) := by
    apply List.ext_getElem?
    intro t
    by_cases ht : t < tr.length
    · rw [htrace t ht, List.getElem?_map, List.getElem?_range ht]
      simp
    · push_neg at ht
      rw [List.getElem?_eq_none ht,
        List.getElem?_eq_none (by rw [List.length_map, List.length_range]; exact ht)]
  rw [htr_eq, count_range_map_mod tr.length j hj14, count_range_map_mod tr.length i hi14]
  split_ifs <;> omega

/-- C10 witness: the balance instantiated for budget 40 between classes 0
and 5 (where the counters are 1 and 0). -/
theorem c10_seed_balance_witness :
    (preallocate_memory 40 initState).1.mem_manager.preallocated_counts.getD 5 0
        ≤ (preallocate_memory 40 initState).1.mem_manager.preallocated_counts.getD 0 0 ∧
    (preallocate_memory 40 initState).1.mem_manager.preallocated_counts.getD 0 0
        ≤ (preallocate_memory 40 initState).1.mem_manager.preallocated_counts.getD 5 0
          + 1 :=
  c10_seed_balance 40 0 5 (by decide) (by decide)

/-! Step facts used for the cross-class isolation argument. -/

theorem mm_malloc_nextBlock_le {size r : Nat} {st st' : ProcState}
    (h : mm_malloc size st = some (r, st')) : st.nextBlock ≤ st'.nextBlock := by
  rcases mm_malloc_cases h with ⟨-, rfl⟩ | ⟨idx, rest, -, -, rfl⟩ | ⟨idx, -, -, -, rfl⟩
  · exact le_refl _
  · exact le_refl _
  · exact Nat.le_succ _

theorem mm_free_nextBlock_eq {ptr size : Nat} {st st' : ProcState}
    (h : mm_free ptr size st = some st') : st'.nextBlock = st.nextBlock := by
  rcases mm_free_cases h with rfl | ⟨idx, l, -, -, rfl⟩
  · rfl
  · rfl

theorem mm_malloc_listAt_mem {size r : Nat} {st st' : ProcState} {j b : Nat}
    (h : mm_malloc size st = some (r, st')) (hmem : b ∈ listAt st' j) :
    b ∈ listAt st j := by
  rcases mm_malloc_cases h with ⟨-, rfl⟩ | ⟨idx, rest, -, hget, rfl⟩ | ⟨idx, -, -, -, rfl⟩
  · exact hmem
  · by_cases hij : idx = j
    · subst hij
      have hlt : idx < st.mem_manager.free_list.length := lt_length_of_getElem? hget
      simp only [listAt] at hmem ⊢
      rw [getD_set_self _ _ _ _ hlt] at hmem
      rw [getD_of_getElem? _ hget]
      exact List.mem_cons_of_mem _ hmem
    · simp only [listAt] at hmem ⊢
      rw [getD_set_ne _ _ _ hij] at hmem
      exact hmem
  · exact hmem

theorem mm_free_listAt_mem {ptr size : Nat} {st st' : ProcState} {j b : Nat}
    (h : mm_free ptr size st = some st') (hmem : b ∈ listAt st' j) :
    b ∈ listAt st j ∨ (b = ptr ∧ get_chunk_index size = some j) := by
  rcases mm_free_cases h with rfl | ⟨idx, l, hidx, hget, rfl⟩
  · exact Or.inl hmem
  · by_cases hij : idx = j
    · subst hij
      have hlt : idx < st.mem_manager.free_list.length := lt_length_of_getElem? hget
      simp only [listAt] at hmem
      rw [getD_set_self _ _ _ _ hlt] at hmem
      rcases List.mem_cons.mp hmem with hb | hb
      · exact Or.inr ⟨hb, hidx⟩
      · refine Or.inl ?_
        simp only [listAt]
        rw [getD_of_getElem? _ hget]
        exact hb
    · simp only [listAt] at hmem
      rw [getD_set_ne _ _ _ hij] at hmem
      exact Or.inl hmem

theorem mm_malloc_result_shape {size r : Nat} {st st' : ProcState}
    (h : mm_malloc size st = some (r, st')) :
    r = 0 ∨ (∃ idx, get_chunk_index size = some idx ∧ r ∈ listAt st idx) ∨
      r = st.nextBlock := by
  rcases mm_malloc_cases h with ⟨hr, -⟩ | ⟨idx, rest, hidx, hget, -⟩ | ⟨idx, -, -, hr, -⟩
  · exact Or.inl hr
  · refine Or.inr (Or.inl ⟨idx, hidx, ?_⟩)
    simp only [listAt]
    rw [getD_of_getElem? _ hget]
    exact List.mem_cons_self _ _
  · exact Or.inr (Or.inr hr)

theorem runTrace_cons {st : ProcState} {op : Op} {ops : List Op}
    {stF : ProcState} {outs : List (Option Nat)}
    (h : runTrace st (op :: ops) = some (stF, outs)) :
    ∃ st1 out outs', stepOp st op = some (st1, out) ∧
      runTrace st1 ops = some (stF, outs') ∧ outs = out :: outs' := by
  unfold runTrace at h
  cases hstep : stepOp st op with
  | none =>
    simp [hstep] at h
  | some p =>
    obtain ⟨st1, out⟩ := p
    simp only [hstep] at h
    obtain ⟨r, hr, heq⟩ := Option.map_eq_some'.mp h
    simp only [Prod.mk.injEq] at heq
    refine ⟨st1, out, r.2, rfl, ?_, heq.2.symm⟩
    rw [hr, ← heq.1]

/-- C9: cross-class isolation over any defined run of core operations.  If a
block b is non-null, predates the run (its identity is below the backing
allocator cursor of the starting state), is not initially on the free list
of class j, and every release of b in the run uses a size that does not
resolve to class j, then no allocation in the run whose size resolves to
class j ever returns b: each free list receives only blocks released for
its own class, and an allocation takes only the head of its own class's
list or a fresh backing block. -/
theorem c9_no_cross_class :
    ∀ (ops : List Op) (st0 stF : ProcState) (outs : List (Option Nat)) (b j : Nat),
      runTrace st0 ops = some (stF, outs) →
      b ≠ 0 → b < st0.nextBlock →
      b ∉ listAt st0 j →
      (∀ s, Op.free b s ∈ ops → get_chunk_index s ≠ some j) →
      ∀ (t s2 : Nat), ops[t]? = some (Op.alloc s2) → get_chunk_index s2 = some j →
        outs[t]? ≠ some (some b) := by
  intro ops
  induction ops with
  | nil =>
    intro st0 stF outs b j hrun hb hlt hmem hfree t s2 hop hcls
    simp at hop
  | cons op ops ih =>
    intro st0 stF outs b j hrun hb hlt hmem hfree t s2 hop hcls
    obtain ⟨st1, out, outs', hstep, hrun', houts⟩ := runTrace_cons hrun
    subst houts
    cases t with
    | zero =>
      rw [List.getElem?_cons_zero] at hop
      have hopa : op = Op.alloc s2 := Option.some.inj hop
      subst hopa
      unfold stepOp at hstep
      obtain ⟨p, hp, hpe⟩ := Option.map_eq_some'.mp hstep
      simp only [Prod.mk.injEq] at hpe
      rw [List.getElem?_cons_zero]
      intro hcontra
      have hout : out = some b := Option.some.inj hcontra
      have hrb : p.1 = b := by
        have h2 := hpe.2
        rw [hout] at h2
        exact Option.some.inj h2
      have hp' : mm_malloc s2 st0 = some (p.1, p.2) := by rw [hp]
      rcases mm_malloc_result_shape hp' with h0 | ⟨idx, hidx, hin⟩ | hfresh
      · exact hb (hrb ▸ h0)
      · rw [hcls] at hidx
        have hji : j = idx := Option.some.inj hidx
        subst hji
        exact hmem (hrb ▸ hin)
      · omega
    | succ t' =>
      rw [List.getElem?_cons_succ] at hop
      rw [List.getElem?_cons_succ]
      have hfree' : ∀ s, Op.free b s ∈ ops → get_chunk_index s ≠ some j :=
        fun s hs => hfree s (List.mem_cons_of_mem _ hs)
      cases op with
      | alloc s =>
        unfold stepOp at hstep
        obtain ⟨p, hp, hpe⟩ := Option.map_eq_some'.mp hstep
        simp only [Prod.mk.injEq] at hpe
        have hp' : mm_malloc s st0 = some (p.1, st1) := by
          rw [hp, ← hpe.1]
        have hlt1 : b < st1.nextBlock :=
          Nat.lt_of_lt_of_le hlt (mm_malloc_nextBlock_le hp')
        have hmem1 : b ∉ listAt st1 j :=
          fun hbin => hmem (mm_malloc_listAt_mem hp' hbin)
        exact ih st1 stF outs' b j hrun' hb hlt1 hmem1 hfree' t' s2 hop hcls
      | free q s =>
        unfold stepOp at hstep
        obtain ⟨a, hp, hpe⟩ := Option.map_eq_some'.mp hstep
        simp only [Prod.mk.injEq] at hpe
        rw [hpe.1] at hp
        have hlt1 : b < st1.nextBlock := by
          rw [mm_free_nextBlock_eq hp]
          exact hlt
        have hmem1 : b ∉ listAt st1 j := by
          intro hbin
          rcases mm_free_listAt_mem hp hbin with hin0 | ⟨hbq, hcl⟩
          · exact hmem hin0
          · subst hbq
            exact hfree s (List.mem_cons_self _ _) hcl
        exact ih st1 stF outs' b j hrun' hb hlt1 hmem1 hfree' t' s2 hop hcls

/-- C9 witness: a concrete two-operation run from a state whose backing
cursor is 2: block 1 is released with size 8 (class 1), and the following
allocation of size 16 (class 2) returns the fresh block 2, not block 1. -/
theorem c9_no_cross_class_witness :
    ([none, some 2] : List (Option Nat))[1]? ≠ some (some 1) :=
  c9_no_cross_class [Op.free 1 8, Op.alloc 16]
    { mem_manager :=
        { free_list := List.replicate 14 []
          preallocated_counts := List.replicate 14 0 }
      nextBlock := 2
      mallocLog := [] }
    { mem_manager :=
        { free_list := (List.replicate 14 []).set 1 [1]
          preallocated_counts := List.replicate 14 0 }
      nextBlock := 3
      mallocLog := [16] }
    [none, some 2] 1 2
    (by decide) (by decide) (by decide) (by decide)
    (by
      intro s hs
      rcases List.mem_cons.mp hs with h1 | h1
      · injection h1 with h2 h3
        subst h3
        decide
      · rcases List.mem_cons.mp h1 with h2 | h2
        · exact Op.noConfusion h2
        · exact absurd h2 (List.not_mem_nil _))
    1 16 (by decide) (by decide)

/-- C7 witness: the three rejection cases evaluated on the initial state. -/
theorem c7_release_rejects_silently_witness :
    mm_free 0 64 initState = some initState ∧
    mm_free 5 0 initState = some initState ∧
    mm_free 5 65537 initState = some initState :=
  ⟨c7_release_rejects_silently 0 64 initState (Or.inl rfl),
   c7_release_rejects_silently 5 0 initState (Or.inr (Or.inl rfl)),
   c7_release_rejects_silently 5 65537 initState (Or.inr (Or.inr (by decide)))⟩

end MemMan
